import Mathlib

/-!
# Verification of the drona adaptive-quiz core

Shallow embedding of the quiz application's core modules and proofs about
them:

* `src/backend/adaptive.py` — scoring utility, adaptive difficulty engine,
  weakness aggregator (pure functions over rationals; Python's float
  arithmetic is modelled exactly over `ℚ`, and Python's `round` — which is
  round-half-to-even — is modelled by `roundHalfEven`).
* `src/backend/cache.py` — cache key derivation and the Redis get/put
  policy (the Redis server is modelled as an explicit key-value state; the
  md5 hex digest, an external library function, is a parameter).
* `src/backend/memory.py` — the ChromaDB-backed long-term memory
  (the collection is an explicit list of records; the external similarity
  ranking of a query is an oracle parameter).
* `src/app.py` — the Submit/Skip handlers' answer-record construction.
-/

namespace Drona

/-- Python's builtin `round` to 0 digits: round-half-to-even on an exact
rational value. -/
def roundHalfEven (q : ℚ) : ℤ :=
  if q - ⌊q⌋ < 1/2 then ⌊q⌋
  else if q - ⌊q⌋ > 1/2 then ⌊q⌋ + 1
  else if ⌊q⌋ % 2 = 0 then ⌊q⌋ else ⌊q⌋ + 1

/-- Python's `round(x, 2)` on an exact rational. -/
def pyRound2 (q : ℚ) : ℚ := (roundHalfEven (q * 100) : ℚ) / 100

/-- Python's `round(x, 1)` on an exact rational. -/
def pyRound1 (q : ℚ) : ℚ := (roundHalfEven (q * 10) : ℚ) / 10

/-! ## `src/backend/adaptive.py` -/

/-- An entry of the in-memory answer history as consumed by
`adaptive.py` (a Python dict; the fields below are the keys it reads,
with their `.get` defaults applied at the producing sites). -/
structure AnsRec where
  marks_earned : ℚ
  marks_total : ℚ
  topic : String
deriving DecidableEq, Repr

/-- Function `compute_score` from `src/backend/adaptive.py`:
`0.0` if `marks_total == 0`, else `round((marks_earned / marks_total) * 10, 2)`. -/
def compute_score (marks_earned marks_total : ℚ) : ℚ :=
  if marks_total = 0 then 0
  else pyRound2 (marks_earned / marks_total * 10)

/-- Function `get_next_difficulty` from `src/backend/adaptive.py`.
`answers[-3:]` is `List.drop (answers.length - 3)`. -/
def get_next_difficulty (answers : List AnsRec) : String :=
  if answers = [] then "Moderate"
  else
    let recent := answers.drop (answers.length - 3)
    let scores := recent.map (fun a => compute_score a.marks_earned a.marks_total)
    let avg := scores.sum / (scores.length : ℚ)
    if avg > 8 then "Tough"
    else if avg > 5 then "Moderate"
    else "Easy"

/-- The list of §4.1 scores of the last `min 3 length` records, exactly the
`scores` local of `get_next_difficulty`. -/
def recentScores (answers : List AnsRec) : List ℚ :=
  (answers.drop (answers.length - 3)).map
    (fun a => compute_score a.marks_earned a.marks_total)

/-! ### Weakness aggregator (`topic_weakness_map`, `get_weak_topics`)

Python dicts are modelled as association lists in insertion order. -/

/-- Lookup in an association list (Python `d[k]` / `k in d`). -/
def alookup {α : Type} (l : List (String × α)) (k : String) : Option α :=
  match l with
  | [] => none
  | (k', v) :: rest => if k' = k then some v else alookup rest k

/-- One loop iteration of `topic_weakness_map`:
`topic_data.setdefault(t, {"earned": 0, "total": 0})` followed by the two
`+=` updates, on the association-list model of the dict. -/
def addToTopic (acc : List (String × (ℚ × ℚ))) (t : String) (e tot : ℚ) :
    List (String × (ℚ × ℚ)) :=
  match acc with
  | [] => [(t, (e, tot))]
  | (k, v) :: rest =>
      if k = t then (k, (v.1 + e, v.2 + tot)) :: rest
      else (k, v) :: addToTopic rest t e tot

/-- The `topic_data` dict built by the loop in `topic_weakness_map`
(`src/backend/adaptive.py`). -/
def topic_data (answers : List AnsRec) : List (String × (ℚ × ℚ)) :=
  answers.foldl (fun acc a => addToTopic acc a.topic a.marks_earned a.marks_total) []

/-- Function `topic_weakness_map` from `src/backend/adaptive.py`: per topic,
`round((earned / total) * 100, 1) if total else 0`. -/
def topic_weakness_map (answers : List AnsRec) : List (String × ℚ) :=
  (topic_data answers).map
    (fun p => (p.1, if p.2.2 ≠ 0 then pyRound1 (p.2.1 / p.2.2 * 100) else 0))

/-- Function `get_weak_topics` from `src/backend/adaptive.py`. -/
def get_weak_topics (answers : List AnsRec) (threshold : ℚ) : List String :=
  (topic_weakness_map answers).filterMap
    (fun p => if p.2 < threshold then some p.1 else none)

/-- Specification-side aggregate: `Σ marks_earned` over the records of one
topic. -/
def specEarned (t : String) (answers : List AnsRec) : ℚ :=
  ((answers.filter (fun a => a.topic = t)).map (fun a => a.marks_earned)).sum

/-- Specification-side aggregate: `Σ marks_total` over the records of one
topic. -/
def specTotal (t : String) (answers : List AnsRec) : ℚ :=
  ((answers.filter (fun a => a.topic = t)).map (fun a => a.marks_total)).sum

/-! ## `src/backend/cache.py`

`_make_key` builds `f"{sorted(topics)}:{difficulty}:{role}:{num_q}"` and
md5-hexes it. The md5 hex digest is an external library function and is a
parameter `digest` of the model; `rawKey` is the exact string fed to it. -/

/-- The single-quote character. -/
def squote : Char := Char.ofNat 39

/-- Python `str.join`: `sep.join(parts)`. -/
def pyJoin (sep : String) : List String → String
  | [] => ""
  | [s] => s
  | s :: rest => s ++ sep ++ pyJoin sep rest

/-- Python `repr` of a string of printable characters: wrapped in single
quotes — or double quotes when the string contains a single quote but no
double quote — with backslashes and the chosen quote character escaped. -/
def pyReprStr (s : String) : String :=
  let q : Char :=
    if s.data.contains squote && !(s.data.contains '"') then '"' else squote
  String.mk ([q] ++
    s.data.flatMap
      (fun c => if c = '\\' then ['\\', '\\']
                else if c = q then ['\\', q] else [c]) ++ [q])

/-- Python `str` of a list of strings: `[repr₀, repr₁, …]`. -/
def pyListRepr (l : List String) : String :=
  "[" ++ pyJoin ", " (l.map pyReprStr) ++ "]"

/-- Python `sorted` on strings (lexicographic by code point, which is
`String`'s order; `sorted` is a stable merge sort). -/
def pySorted (l : List String) : List String := l.mergeSort

/-- The string `f"{sorted(topics)}:{difficulty}:{role}:{num_q}"` that
`_make_key` hashes. -/
def rawKey (topics : List String) (difficulty role : String) (num_q : ℤ) :
    String :=
  pyListRepr (pySorted topics) ++ ":" ++ difficulty ++ ":" ++ role ++ ":" ++
    toString num_q

/-- Function `_make_key` from `src/backend/cache.py`, with the md5 hex digest as the
parameter `digest`. -/
def make_key (digest : String → String) (topics : List String)
    (difficulty role : String) (num_q : ℤ) : String :=
  "dronaai:questions:" ++ digest (rawKey topics difficulty role num_q)

/-- A value as it sits in Redis under a key: `ok qs` models the string
`json.dumps(qs)` (which `json.loads` parses back to an equal value);
`malformed` models any stored string that is empty or on which
`json.loads` raises. -/
inductive StoredVal (Q : Type) where
  | ok (qs : Q)
  | malformed
deriving DecidableEq

/-- The Redis backend visible to `cache.py`: `available = false` models
`_get_client()` returning `None` or every operation raising; entries are
the stored key-value pairs (a newer entry shadows an older one with the
same key, observationally Redis `SET` overwrite). -/
structure RedisState (Q : Type) where
  available : Bool
  entries : List (String × StoredVal Q)

/-- Function `get_cached_questions` from `src/backend/cache.py`: `None` without a
client; otherwise the parsed stored value, with a miss, an empty/falsy
string, or a `json.loads` failure all yielding `None` via the swallowed
exception. -/
def get_cached_questions {Q : Type} (st : RedisState Q)
    (digest : String → String) (topics : List String) (difficulty role : String)
    (num_q : ℤ) : Option Q :=
  if st.available = false then none
  else
    match alookup st.entries (make_key digest topics difficulty role num_q) with
    | some (StoredVal.ok qs) => some qs
    | some StoredVal.malformed => none
    | none => none

/-- Function `cache_questions` from `src/backend/cache.py`: `False` without a
client (or on a raising write), else `setex` of `json.dumps(questions)`
under the derived key and `True`. The 6-hour TTL is not modelled (no
claim concerns expiry). -/
def cache_questions {Q : Type} (st : RedisState Q) (digest : String → String)
    (topics : List String) (difficulty role : String) (num_q : ℤ)
    (questions : Q) : RedisState Q × Bool :=
  if st.available = false then (st, false)
  else
    ({ st with
        entries := (make_key digest topics difficulty role num_q,
          StoredVal.ok questions) :: st.entries },
      true)

/-! ## `src/backend/memory.py`

The ChromaDB collection is a list of records (`none` models the store
being unreachable: the swallow-all `except` branches). A query's
similarity ranking is external; it is the oracle parameter `sim`, assumed
only to rank (permute) the session-filtered records. -/

/-- The structured metadata of one stored memory record. -/
structure MemMeta where
  session_id : String
  topic : String
  difficulty : String
  score_percent : ℚ
  correct : Bool
deriving DecidableEq, Repr

/-- One record of the `dronaai_memory` collection: the stable id, the
searchable document text, the metadata. -/
structure MemRecord where
  id : String
  doc : String
  meta : MemMeta
deriving DecidableEq, Repr

/-- Chroma `upsert` of a single id: replace the record carrying the id if
present, else append. -/
def upsertRec (recs : List MemRecord) (i : String) (r : MemRecord) :
    List MemRecord :=
  if recs.any (fun x => x.id = i) then
    recs.map (fun x => if x.id = i then r else x)
  else recs ++ [r]

/-- The record built by `store_answer`: the id is the digest of
`f"{session_id}:{question}"`, the document is the flattened summary
string, and the metadata carries `correct = (score_percent ≥ 70)`. -/
def storeRec (digest : String → String) (session_id question : String)
    (user_answer correct_answer : List String) (topic difficulty : String)
    (score_percent : ℚ) : MemRecord :=
  ⟨digest (session_id ++ ":" ++ question),
    "Topic: " ++ topic ++ " | Difficulty: " ++ difficulty ++
      " | Question: " ++ question ++
      " | User Answer: " ++ pyJoin "; " user_answer ++
      " | Correct Answer: " ++ pyJoin "; " correct_answer ++
      " | Score: " ++ toString score_percent ++ "%",
    ⟨session_id, topic, difficulty, score_percent,
      decide (score_percent ≥ 70)⟩⟩

/-- Function `store_answer` from `src/backend/memory.py`; `digest` is the external
md5 hex digest applied to `f"{session_id}:{question}"`. -/
def store_answer (st : Option (List MemRecord)) (digest : String → String)
    (session_id question : String) (user_answer correct_answer : List String)
    (topic difficulty : String) (score_percent : ℚ) :
    Option (List MemRecord) × Bool :=
  match st with
  | none => (none, false)
  | some recs =>
    (some (upsertRec recs (digest (session_id ++ ":" ++ question))
        (storeRec digest session_id question user_answer correct_answer
          topic difficulty score_percent)),
      true)

/-- One iteration of the topic-counting loop of `get_weak_areas`:
`weak[t] = weak.get(t, 0) + 1` on the association-list model. -/
def bumpTopic (acc : List (String × ℕ)) (t : String) : List (String × ℕ) :=
  match acc with
  | [] => [(t, 1)]
  | (k, c) :: rest =>
      if k = t then (k, c + 1) :: rest else (k, c) :: bumpTopic rest t

/-- The `weak` dict of `get_weak_areas`: how often each topic occurs among
candidates whose metadata has `correct = false`. -/
def weakCounts (metas : List MemMeta) : List (String × ℕ) :=
  metas.foldl (fun acc m => if m.correct = false then bumpTopic acc m.topic else acc) []

/-- The candidate records returned by the Chroma query of
`get_weak_areas`: the first `n_results = min(top_k * 3, col.count())` of
the session-filtered records in the external similarity order `sim`
(induced by the fixed probe `"weak incorrect wrong failed struggle"`). -/
def queryCandidates (recs : List MemRecord)
    (sim : List MemRecord → List MemRecord) (session_id : String)
    (top_k : ℕ) : List MemRecord :=
  (sim (recs.filter (fun r => r.meta.session_id = session_id))).take
    (min (top_k * 3) recs.length)

/-- Function `get_weak_areas` from `src/backend/memory.py`. -/
def get_weak_areas (st : Option (List MemRecord))
    (sim : List MemRecord → List MemRecord) (session_id : String)
    (top_k : ℕ) : List String :=
  match st with
  | none => []
  | some recs =>
    if recs.length = 0 then []
    else
      let candidates := queryCandidates recs sim session_id top_k
      let weak := weakCounts (candidates.map (fun r => r.meta))
      let sorted_weak := weak.mergeSort (fun a b => b.2 ≤ a.2)
      (sorted_weak.take top_k).map Prod.fst

/-- Function `get_session_history_summary` from `src/backend/memory.py`. The
`weak_topics` set comprehension iterates in an unspecified set order;
modelled as `dedup` of the incorrect records' topics. -/
def get_session_history_summary (st : Option (List MemRecord))
    (session_id : String) : String :=
  match st with
  | none => ""
  | some recs =>
    if recs.length = 0 then ""
    else
      let metas := (recs.filter (fun r => r.meta.session_id = session_id)).map
        (fun r => r.meta)
      if metas = [] then ""
      else
        let total := metas.length
        let corr := (metas.filter (fun m => m.correct)).length
        let weak_topics :=
          ((metas.filter (fun m => m.correct = false)).map (fun m => m.topic)).dedup
        "Past performance: " ++ toString corr ++ "/" ++ toString total ++
          " correct. Weak areas from history: " ++
          (if weak_topics ≠ [] then pyJoin ", " weak_topics
           else "none identified") ++ "."

/-- Function `clear_session_memory` from `src/backend/memory.py`: collect the ids
of the session's records, delete by those ids (a no-op when none match),
return `True`; `False` only on a store failure. -/
def clear_session_memory (st : Option (List MemRecord)) (session_id : String) :
    Option (List MemRecord) × Bool :=
  match st with
  | none => (none, false)
  | some recs =>
    let ids := (recs.filter (fun r => r.meta.session_id = session_id)).map
      (fun r => r.id)
    (some (recs.filter (fun r => ¬ r.id ∈ ids)), true)

/-- Specification-side count: how many of the candidate metadatas are
incorrect records of topic `t`. -/
def countFailed (metas : List MemMeta) (t : String) : ℕ :=
  (metas.filter (fun m => m.correct = false ∧ m.topic = t)).length

/-- One element of `st.session_state.answers` as appended by the Submit
and Skip handlers of `src/app.py`. -/
structure AnswerRecord where
  index : ℕ
  question : String
  chosen : Finset String
  correct : Finset String
  marks_earned : ℚ
  marks_total : ℚ
  topic : String
  difficulty : String
  correct_flag : Bool

/-- The `earned` computation of the Submit handler
(`src/app.py`, lines 490–494): full marks or zero for a single-answer
question, partial credit `round(marks_total * (matched / max(1, |C|)), 2)`
for a multi-answer question. -/
def submit_earned (chosen correct : Finset String) (marks_total : ℤ) : ℚ :=
  if correct.card = 1 then
    (if chosen = correct then (marks_total : ℚ) else 0)
  else
    pyRound2 ((marks_total : ℚ) *
      (((chosen ∩ correct).card : ℚ) / ((max 1 correct.card : ℕ) : ℚ)))

/-- The `answer_record` dict appended by the Submit handler
(`src/app.py`, lines 499–510); `marks` is `int(q.get("marks", 5))`. -/
def submit_record (idx : ℕ) (question : String) (selected : List String)
    (correct_options : List String) (marks : ℤ) (topic difficulty : String) :
    AnswerRecord :=
  ⟨idx, question, selected.toFinset, correct_options.toFinset,
    submit_earned selected.toFinset correct_options.toFinset marks,
    (marks : ℚ), topic, difficulty,
    decide (selected.toFinset = correct_options.toFinset)⟩

/-- The record appended by the Skip handler (`src/app.py`,
lines 530–540): no choice, zero marks earned, `correct_flag = False`. -/
def skip_record (idx : ℕ) (question : String) (correct_options : List String)
    (marks : ℤ) (topic difficulty : String) : AnswerRecord :=
  ⟨idx, question, ∅, correct_options.toFinset, 0, (marks : ℚ), topic,
    difficulty, false⟩

theorem roundHalfEven_ge_floor (q : ℚ) : ⌊q⌋ ≤ roundHalfEven q := by
  unfold roundHalfEven
  split_ifs <;> omega

theorem roundHalfEven_le_ceil (q : ℚ) : roundHalfEven q ≤ ⌈q⌉ := by
  unfold roundHalfEven
  have hfc : (⌊q⌋ : ℤ) ≤ ⌈q⌉ := Int.floor_le_ceil q
  split_ifs with h1 h2 h3
  · exact hfc
  · -- here 1/2 < q - ⌊q⌋, so q is not an integer and ⌊q⌋ < ⌈q⌉
    have hq : (⌊q⌋ : ℚ) < q := by linarith
    have : (⌊q⌋ : ℤ) < ⌈q⌉ := by
      have := Int.lt_ceil.mpr hq
      exact this
    omega
  · exact hfc
  · have hq : (⌊q⌋ : ℚ) < q := by linarith
    have : (⌊q⌋ : ℤ) < ⌈q⌉ := Int.lt_ceil.mpr hq
    omega

theorem roundHalfEven_nonneg {q : ℚ} (h : 0 ≤ q) : 0 ≤ roundHalfEven q := by
  have h0 : (0 : ℤ) ≤ ⌊q⌋ := by
    have := Int.floor_nonneg.mpr h
    simpa using this
  have := roundHalfEven_ge_floor q
  omega

theorem roundHalfEven_le_of_le_int {q : ℚ} {n : ℤ} (h : q ≤ n) :
    roundHalfEven q ≤ n := by
  have h1 : (⌈q⌉ : ℤ) ≤ n := Int.ceil_le.mpr h
  have := roundHalfEven_le_ceil q
  omega

theorem roundHalfEven_intCast (n : ℤ) : roundHalfEven (n : ℚ) = n := by
  unfold roundHalfEven
  have h : (⌊(n : ℚ)⌋ : ℤ) = n := Int.floor_intCast n
  rw [h]
  simp

/-- Lemma: `pyRound2` maps `[0, n]` into `[0, n]` for an integer bound `n`. -/
theorem pyRound2_bounds {q : ℚ} {n : ℤ} (h0 : 0 ≤ q) (hn : q ≤ n) :
    0 ≤ pyRound2 q ∧ pyRound2 q ≤ n := by
  unfold pyRound2
  constructor
  · have := roundHalfEven_nonneg (q := q * 100) (by positivity)
    positivity
  · have hle : q * 100 ≤ ((n * 100 : ℤ) : ℚ) := by push_cast; linarith
    have := roundHalfEven_le_of_le_int hle
    rw [div_le_iff₀ (by norm_num)]
    calc (roundHalfEven (q * 100) : ℚ) ≤ ((n * 100 : ℤ) : ℚ) := by exact_mod_cast this
      _ = n * 100 := by push_cast; ring

/-- C6: `compute_score` returns `0` when `marks_total = 0` and
`round(10 · marks_earned / marks_total, 2)` otherwise; under
`0 ≤ marks_earned ≤ marks_total` the result lies in `[0, 10]`. -/
theorem compute_score_spec (e t : ℚ) :
    (t = 0 → compute_score e t = 0) ∧
    (t ≠ 0 → compute_score e t = pyRound2 (10 * e / t)) ∧
    (0 ≤ e → e ≤ t → 0 ≤ compute_score e t ∧ compute_score e t ≤ 10) := by
  refine ⟨fun h => by simp [compute_score, h], fun h => ?_, fun he het => ?_⟩
  · simp only [compute_score, if_neg h]
    ring_nf
  · unfold compute_score
    split_ifs with h
    · norm_num
    · have ht : 0 < t := lt_of_le_of_ne (le_trans he het) (Ne.symm h)
      have h1 : 0 ≤ e / t * 10 := by positivity
      have h2 : e / t * 10 ≤ ((10 : ℤ) : ℚ) := by
        have : e / t ≤ 1 := (div_le_one ht).mpr het
        push_cast
        linarith
      exact pyRound2_bounds h1 h2

/-- Witness for `compute_score_spec` at concrete inputs. -/
theorem compute_score_spec_witness :
    compute_score 3 0 = 0 ∧ compute_score 3 5 = pyRound2 (10 * 3 / 5) ∧
      (0 ≤ compute_score 3 5 ∧ compute_score 3 5 ≤ 10) :=
  ⟨(compute_score_spec 3 0).1 rfl,
   (compute_score_spec 3 5).2.1 (by norm_num),
   (compute_score_spec 3 5).2.2 (by norm_num) (by norm_num)⟩

/-- C1: on an empty history `get_next_difficulty` returns `"Moderate"`;
otherwise, with `m` the arithmetic mean of the §4.1 scores of the last
`min 3 length` records, it returns `"Tough"` when `m > 8`, `"Moderate"` when
`5 < m ≤ 8`, `"Easy"` when `m ≤ 5`; and it always returns one of the three
labels. -/
theorem get_next_difficulty_spec (answers : List AnsRec) :
    (answers = [] → get_next_difficulty answers = "Moderate") ∧
    (answers ≠ [] →
      (recentScores answers).length = min 3 answers.length ∧
      ((recentScores answers).sum / ((recentScores answers).length : ℚ) > 8 →
        get_next_difficulty answers = "Tough") ∧
      (5 < (recentScores answers).sum / ((recentScores answers).length : ℚ) ∧
        (recentScores answers).sum / ((recentScores answers).length : ℚ) ≤ 8 →
        get_next_difficulty answers = "Moderate") ∧
      ((recentScores answers).sum / ((recentScores answers).length : ℚ) ≤ 5 →
        get_next_difficulty answers = "Easy")) ∧
    (get_next_difficulty answers = "Tough" ∨
      get_next_difficulty answers = "Moderate" ∨
      get_next_difficulty answers = "Easy") := by
  refine ⟨fun h => by simp [get_next_difficulty, h], fun h => ?_, ?_⟩
  · refine ⟨?_, ?_, ?_, ?_⟩
    · simp only [recentScores, List.length_map, List.length_drop]
      omega
    · intro hm
      simp only [recentScores, List.length_map] at hm
      simp only [get_next_difficulty, if_neg h, List.length_map]
      rw [if_pos hm]
    · rintro ⟨hm1, hm2⟩
      simp only [recentScores, List.length_map] at hm1 hm2
      simp only [get_next_difficulty, if_neg h, List.length_map]
      rw [if_neg (by linarith), if_pos hm1]
    · intro hm
      simp only [recentScores, List.length_map] at hm
      simp only [get_next_difficulty, if_neg h, List.length_map]
      rw [if_neg (by linarith), if_neg (by linarith)]
  · by_cases h0 : answers = []
    · simp [get_next_difficulty, h0]
    · simp only [get_next_difficulty, if_neg h0]
      split_ifs <;> tauto

/-- Witness for `get_next_difficulty_spec`: empty history and a
one-record history whose mean score is 9. -/
theorem get_next_difficulty_spec_witness :
    get_next_difficulty [] = "Moderate" ∧
      get_next_difficulty [⟨9, 10, "A"⟩] = "Tough" :=
  ⟨(get_next_difficulty_spec []).1 rfl,
   ((get_next_difficulty_spec [⟨9, 10, "A"⟩]).2.1 (by simp)).2.1 (by
      norm_num [recentScores, compute_score, pyRound2, roundHalfEven])⟩

theorem addToTopic_keys (acc : List (String × (ℚ × ℚ))) (t : String) (e tot : ℚ) :
    (addToTopic acc t e tot).map Prod.fst =
      if t ∈ acc.map Prod.fst then acc.map Prod.fst
      else acc.map Prod.fst ++ [t] := by
  induction acc with
  | nil => simp [addToTopic]
  | cons p rest ih =>
    obtain ⟨k, v⟩ := p
    by_cases hk : k = t
    · simp [addToTopic, hk]
    · simp only [addToTopic, if_neg hk, List.map_cons, ih]
      have hiff : (t ∈ k :: rest.map Prod.fst) ↔ t ∈ rest.map Prod.fst := by
        constructor
        · intro h
          rcases List.mem_cons.mp h with h1 | h1
          · exact absurd h1.symm hk
          · exact h1
        · exact fun h => List.mem_cons_of_mem _ h
      rw [if_congr hiff rfl rfl]
      by_cases hm : t ∈ rest.map Prod.fst
      · simp [hm]
      · simp [hm]

theorem addToTopic_lookup (acc : List (String × (ℚ × ℚ))) (t : String)
    (e tot : ℚ) (s : String) :
    alookup (addToTopic acc t e tot) s =
      if s = t then
        (match alookup acc t with
          | some v => some (v.1 + e, v.2 + tot)
          | none => some (e, tot))
      else alookup acc s := by
  induction acc with
  | nil =>
    by_cases hs : s = t
    · subst hs; simp [addToTopic, alookup]
    · simp [addToTopic, alookup, hs, Ne.symm hs]
  | cons p rest ih =>
    obtain ⟨k, v⟩ := p
    by_cases hk : k = t
    · subst hk
      by_cases hs : s = k
      · subst hs; simp [addToTopic, alookup]
      · simp [addToTopic, alookup, hs, Ne.symm hs]
    · simp only [addToTopic, if_neg hk]
      by_cases hs : k = s
      · subst hs
        simp [alookup, hk]
      · simp [alookup, hk, hs, ih]

theorem specEarned_append (t : String) (l : List AnsRec) (a : AnsRec) :
    specEarned t (l ++ [a]) =
      specEarned t l + (if a.topic = t then a.marks_earned else 0) := by
  unfold specEarned
  rw [List.filter_append]
  by_cases h : a.topic = t <;> simp [h]

theorem specTotal_append (t : String) (l : List AnsRec) (a : AnsRec) :
    specTotal t (l ++ [a]) =
      specTotal t l + (if a.topic = t then a.marks_total else 0) := by
  unfold specTotal
  rw [List.filter_append]
  by_cases h : a.topic = t <;> simp [h]

theorem topic_data_append (l : List AnsRec) (a : AnsRec) :
    topic_data (l ++ [a]) =
      addToTopic (topic_data l) a.topic a.marks_earned a.marks_total := by
  unfold topic_data
  rw [List.foldl_append]
  rfl

/-- Group-by correctness: looking a topic up in `topic_data` yields the
pair of per-topic sums, and exactly the topics of the history are present. -/
theorem topic_data_lookup (answers : List AnsRec) (s : String) :
    alookup (topic_data answers) s =
      if s ∈ answers.map (fun a => a.topic) then
        some (specEarned s answers, specTotal s answers)
      else none := by
  induction answers using List.reverseRecOn with
  | nil => simp [topic_data, alookup, specEarned, specTotal]
  | append_singleton init a ih =>
    rw [topic_data_append, addToTopic_lookup, specEarned_append, specTotal_append]
    by_cases hs : s = a.topic
    · rw [hs] at ih
      rw [if_pos hs, hs, ih]
      by_cases hm : a.topic ∈ init.map (fun a => a.topic)
      · simp [hm]
      · have h0 : specEarned a.topic init = 0 := by
          unfold specEarned
          rw [List.filter_eq_nil_iff.mpr]
          · simp
          · intro x hx hc
            exact hm (List.mem_map.mpr ⟨x, hx, by simpa using hc⟩)
        have h1 : specTotal a.topic init = 0 := by
          unfold specTotal
          rw [List.filter_eq_nil_iff.mpr]
          · simp
          · intro x hx hc
            exact hm (List.mem_map.mpr ⟨x, hx, by simpa using hc⟩)
        simp [hm, h0, h1]
    · rw [if_neg hs, ih]
      have hne : ¬ (a.topic = s) := fun h => hs (Eq.symm h)
      by_cases hm : s ∈ init.map (fun a => a.topic) <;>
        simp [hm, hne, hs]

theorem topic_data_keys_nodup (answers : List AnsRec) :
    ((topic_data answers).map Prod.fst).Nodup := by
  induction answers using List.reverseRecOn with
  | nil => simp [topic_data]
  | append_singleton init a ih =>
    rw [topic_data_append, addToTopic_keys]
    by_cases hm : a.topic ∈ (topic_data init).map Prod.fst
    · simpa [hm] using ih
    · rw [if_neg hm]
      simp only [List.nodup_append, List.nodup_cons]
      exact ⟨ih, by simp, by simpa using hm⟩

theorem topic_data_keys_mem (answers : List AnsRec) (s : String) :
    s ∈ (topic_data answers).map Prod.fst ↔
      s ∈ answers.map (fun a => a.topic) := by
  induction answers using List.reverseRecOn with
  | nil => simp [topic_data]
  | append_singleton init a ih =>
    rw [topic_data_append, addToTopic_keys]
    by_cases hm : a.topic ∈ (topic_data init).map Prod.fst
    · have := ih
      rw [if_pos hm]
      rw [ih]
      constructor
      · intro h; simp only [List.map_append, List.mem_append]; exact Or.inl h
      · intro h
        rcases (by simpa using h : s ∈ init.map (fun a => a.topic) ∨ s = a.topic) with
          h1 | h1
        · exact h1
        · rw [← ih]; rw [h1]; exact hm
    · rw [if_neg hm]
      simp [ih, or_comm]

theorem alookup_map_snd {α β : Type} (l : List (String × α)) (g : α → β)
    (k : String) :
    alookup (l.map (fun p => (p.1, g p.2))) k = (alookup l k).map g := by
  induction l with
  | nil => simp [alookup]
  | cons p rest ih =>
    obtain ⟨k', v⟩ := p
    by_cases h : k' = k
    · simp [alookup, h]
    · simp [alookup, h, ih]

theorem alookup_eq_some_of_mem {α : Type} {l : List (String × α)} {k : String}
    {v : α} (hnd : (l.map Prod.fst).Nodup) (hm : (k, v) ∈ l) :
    alookup l k = some v := by
  induction l with
  | nil => simp at hm
  | cons p rest ih =>
    obtain ⟨k', v'⟩ := p
    simp only [List.map_cons, List.nodup_cons] at hnd
    rcases List.mem_cons.mp hm with h1 | h1
    · obtain ⟨hk, hv⟩ := Prod.mk.injEq .. ▸ h1.symm
      simp [alookup, hk, hv]
    · have hk : ¬ k' = k := by
        intro h
        subst h
        exact hnd.1 (List.mem_map.mpr ⟨(k', v), h1, rfl⟩)
      simp [alookup, hk, ih hnd.2 h1]

theorem mem_of_alookup_eq_some {α : Type} {l : List (String × α)} {k : String}
    {v : α} (h : alookup l k = some v) : (k, v) ∈ l := by
  induction l with
  | nil => simp [alookup] at h
  | cons p rest ih =>
    obtain ⟨k', v'⟩ := p
    by_cases hk : k' = k
    · subst hk
      have hv : v' = v := by simpa [alookup] using h
      subst hv
      exact List.mem_cons_self _ _
    · simp only [alookup, if_neg hk] at h
      exact List.mem_cons_of_mem _ (ih h)

theorem get_weak_topics_sublist (answers : List AnsRec) (threshold : ℚ) :
    (get_weak_topics answers threshold).Sublist
      ((topic_weakness_map answers).map Prod.fst) := by
  unfold get_weak_topics
  generalize topic_weakness_map answers = l
  induction l with
  | nil => simp
  | cons p rest ih =>
    by_cases h : p.2 < threshold
    · simpa [List.filterMap_cons, h] using List.Sublist.cons₂ p.1 ih
    · simpa [List.filterMap_cons, h] using List.Sublist.cons p.1 ih

/-- C2: `topic_weakness_map` maps exactly the topics occurring in the
history, each once, to `round(100 · Σ marks_earned / Σ marks_total, 1)`
over that topic's records (`0` when the topic's `Σ marks_total = 0`), and
`get_weak_topics` contains exactly the topics whose percent is strictly
below the threshold, each exactly once. -/
theorem weak_topics_spec (answers : List AnsRec) (threshold : ℚ) :
    ((topic_weakness_map answers).map Prod.fst).Nodup ∧
    (∀ t, t ∈ (topic_weakness_map answers).map Prod.fst ↔
      t ∈ answers.map (fun a => a.topic)) ∧
    (∀ t, t ∈ answers.map (fun a => a.topic) →
      alookup (topic_weakness_map answers) t =
        some (if specTotal t answers = 0 then 0
              else pyRound1 (100 * specEarned t answers / specTotal t answers))) ∧
    (get_weak_topics answers threshold).Nodup ∧
    (∀ t, t ∈ get_weak_topics answers threshold ↔
      ∃ pct, alookup (topic_weakness_map answers) t = some pct ∧
        pct < threshold) := by
  have hnd : ((topic_weakness_map answers).map Prod.fst).Nodup := by
    unfold topic_weakness_map
    rw [List.map_map]
    exact topic_data_keys_nodup answers
  have hlook : ∀ t, alookup (topic_weakness_map answers) t =
      (alookup (topic_data answers) t).map
        (fun v => if v.2 ≠ 0 then pyRound1 (v.1 / v.2 * 100) else 0) :=
    fun t => alookup_map_snd (topic_data answers)
      (fun v => if v.2 ≠ 0 then pyRound1 (v.1 / v.2 * 100) else 0) t
  refine ⟨hnd, fun t => ?_, fun t ht => ?_, ?_, fun t => ?_⟩
  · unfold topic_weakness_map
    rw [List.map_map]
    exact topic_data_keys_mem answers t
  · rw [hlook, topic_data_lookup, if_pos ht]
    by_cases h0 : specTotal t answers = 0
    · simp [h0]
    · have harg : specEarned t answers / specTotal t answers * 100 =
          100 * specEarned t answers / specTotal t answers := by ring
      simp [h0, harg]
  · exact (get_weak_topics_sublist answers threshold).nodup hnd
  · unfold get_weak_topics
    rw [List.mem_filterMap]
    constructor
    · rintro ⟨⟨k, pct⟩, hmem, hf⟩
      by_cases h : pct < threshold
      · simp only [if_pos h, Option.some.injEq] at hf
        subst hf
        exact ⟨pct, alookup_eq_some_of_mem hnd hmem, h⟩
      · simp [if_neg h] at hf
    · rintro ⟨pct, hlk, hlt⟩
      exact ⟨(t, pct), mem_of_alookup_eq_some hlk, by simp [hlt]⟩

/-- Witness for `weak_topics_spec`: history `{topicA: 2/10, topicB: 9/10}`
with threshold 60 — `topicA` maps to `20.0`, is weak, and is in
`get_weak_topics`; `topicB` maps to `90.0` and is not. -/
theorem weak_topics_spec_witness :
    alookup (topic_weakness_map [⟨2, 10, "topicA"⟩, ⟨9, 10, "topicB"⟩])
        "topicA" =
      some (if specTotal "topicA" [⟨2, 10, "topicA"⟩, ⟨9, 10, "topicB"⟩] = 0
            then 0
            else pyRound1 (100 *
              specEarned "topicA" [⟨2, 10, "topicA"⟩, ⟨9, 10, "topicB"⟩] /
              specTotal "topicA" [⟨2, 10, "topicA"⟩, ⟨9, 10, "topicB"⟩])) ∧
    "topicA" ∈ get_weak_topics [⟨2, 10, "topicA"⟩, ⟨9, 10, "topicB"⟩] 60 :=
  ⟨(weak_topics_spec [⟨2, 10, "topicA"⟩, ⟨9, 10, "topicB"⟩] 60).2.2.1 "topicA"
      (by decide),
   ((weak_topics_spec [⟨2, 10, "topicA"⟩, ⟨9, 10, "topicB"⟩] 60).2.2.2.2
      "topicA").mpr
      ⟨20, by norm_num [topic_weakness_map, topic_data, addToTopic, alookup,
        pyRound1, roundHalfEven], by norm_num⟩⟩

theorem pySorted_perm_eq {l₁ l₂ : List String} (h : l₁.Perm l₂) :
    pySorted l₁ = pySorted l₂ :=
  List.eq_of_perm_of_sorted
    ((List.mergeSort_perm l₁ _).trans (h.trans (List.mergeSort_perm l₂ _).symm))
    (List.sorted_mergeSort' l₁) (List.sorted_mergeSort' l₂)

/-- C4, counterexample to "any change to any field maps to a different
key": the raw string delimits fields with `:`, so
`(difficulty := "B:C", role := "D")` and `(difficulty := "B",
role := "C:D")` feed the identical string to the digest and hence yield
the identical key, although the fields differ. -/
theorem make_key_not_injective :
    rawKey ["A"] "B:C" "D" 5 = rawKey ["A"] "B" "C:D" 5 ∧
    make_key (fun s => s) ["A"] "B:C" "D" 5 =
      make_key (fun s => s) ["A"] "B" "C:D" 5 ∧
    ¬ ("B:C" = "B" ∧ "D" = "C:D") := by
  have h1 : pySorted ["A"] = ["A"] := by
    simp [pySorted]
  have hraw : rawKey ["A"] "B:C" "D" 5 = rawKey ["A"] "B" "C:D" 5 := by
    unfold rawKey
    rw [h1]
    decide
  exact ⟨hraw, by unfold make_key; rw [hraw], by decide⟩

/-- C4 as amended: key derivation is a pure function (deterministic by
construction), and for any digest it is invariant under permutation of the
topic list; injectivity across distinct field tuples does not hold (see
`make_key_not_injective`). -/
theorem make_key_perm_invariant (digest : String → String)
    (topics₁ topics₂ : List String) (d r : String) (n : ℤ)
    (hperm : topics₁.Perm topics₂) :
    make_key digest topics₁ d r n = make_key digest topics₂ d r n := by
  unfold make_key rawKey
  rw [pySorted_perm_eq hperm]

/-- Witness for `make_key_perm_invariant`:
`deriveKey(["A","B"], "Easy", "X", 5) == deriveKey(["B","A"], "Easy", "X", 5)`. -/
theorem make_key_perm_invariant_witness :
    make_key (fun s => s) ["A", "B"] "Easy" "X" 5 =
      make_key (fun s => s) ["B", "A"] "Easy" "X" 5 :=
  make_key_perm_invariant (fun s => s) ["A", "B"] ["B", "A"] "Easy" "X" 5
    (by decide)

/-- C5: put-then-get returns the cached question set whenever the store is
available; an unavailable store, a malformed stored value, or an absent
entry all make `get_cached_questions` return `none`, and an unavailable
store makes `cache_questions` report `false` rather than fault. -/
theorem cache_round_trip {Q : Type} (st : RedisState Q)
    (digest : String → String) (topics : List String) (d r : String) (n : ℤ)
    (qs : Q) :
    (st.available = true →
      get_cached_questions (cache_questions st digest topics d r n qs).1
          digest topics d r n = some qs ∧
      (cache_questions st digest topics d r n qs).2 = true) ∧
    (st.available = false →
      get_cached_questions st digest topics d r n = none ∧
      (cache_questions st digest topics d r n qs).2 = false) ∧
    (alookup st.entries (make_key digest topics d r n) =
        some StoredVal.malformed →
      get_cached_questions st digest topics d r n = none) ∧
    (alookup st.entries (make_key digest topics d r n) = none →
      get_cached_questions st digest topics d r n = none) := by
  refine ⟨fun hav => ?_, fun hav => ?_, fun hmal => ?_, fun habs => ?_⟩
  · unfold cache_questions
    rw [if_neg (by simp [hav])]
    unfold get_cached_questions
    rw [if_neg (by simp [hav])]
    simp [alookup]
  · unfold get_cached_questions cache_questions
    rw [if_pos hav, if_pos hav]
    exact ⟨rfl, rfl⟩
  · unfold get_cached_questions
    by_cases hav : st.available = false
    · rw [if_pos hav]
    · rw [if_neg hav, hmal]
  · unfold get_cached_questions
    by_cases hav : st.available = false
    · rw [if_pos hav]
    · rw [if_neg hav, habs]

/-- Witness for `cache_round_trip`: an available empty store round-trips
the value `7`; an unavailable store yields `none` and a `false` write
flag. -/
theorem cache_round_trip_witness :
    get_cached_questions
        (cache_questions (RedisState.mk true ([] : List (String × StoredVal ℕ)))
          (fun s => s) ["A"] "Easy" "X" 5 7).1 (fun s => s) ["A"] "Easy" "X" 5 =
      some 7 ∧
    get_cached_questions
        (RedisState.mk false ([] : List (String × StoredVal ℕ)))
        (fun s => s) ["A"] "Easy" "X" 5 = none ∧
    (cache_questions (RedisState.mk false ([] : List (String × StoredVal ℕ)))
        (fun s => s) ["A"] "Easy" "X" 5 7).2 = false :=
  ⟨((cache_round_trip _ _ _ _ _ _ _).1 rfl).1,
   ((cache_round_trip (RedisState.mk false []) (fun s => s) ["A"] "Easy" "X" 5
      7).2.1 rfl).1,
   ((cache_round_trip (RedisState.mk false []) (fun s => s) ["A"] "Easy" "X" 5
      7).2.1 rfl).2⟩

theorem clear_session_no_sid (recs : List MemRecord) (sid : String) :
    ∀ r ∈ (recs.filter (fun r =>
        ¬ r.id ∈ (recs.filter (fun r => r.meta.session_id = sid)).map
          (fun r => r.id))),
      r.meta.session_id ≠ sid := by
  intro r hr hsid
  have hmem := List.mem_filter.mp hr
  have hid : r.id ∈ (recs.filter (fun r => r.meta.session_id = sid)).map
      (fun r => r.id) :=
    List.mem_map.mpr ⟨r, List.mem_filter.mpr ⟨hmem.1, by simp [hsid]⟩, rfl⟩
  have := hmem.2
  simp only [decide_not, Bool.not_eq_true', decide_eq_false_iff_not] at this
  exact this hid

theorem get_weak_areas_of_no_sid (recs : List MemRecord) (sid : String)
    (sim : List MemRecord → List MemRecord) (top_k : ℕ)
    (hsim : ∀ l, (sim l).Perm l)
    (h : ∀ r ∈ recs, r.meta.session_id ≠ sid) :
    get_weak_areas (some recs) sim sid top_k = [] := by
  simp only [get_weak_areas, queryCandidates]
  by_cases hlen : recs.length = 0
  · simp [hlen]
  · rw [if_neg hlen]
    have hfil : recs.filter (fun r => r.meta.session_id = sid) = [] :=
      List.filter_eq_nil_iff.mpr (fun r hr => by simp [h r hr])
    rw [hfil, (hsim []).eq_nil]
    simp [weakCounts]

theorem get_session_history_summary_of_no_sid (recs : List MemRecord)
    (sid : String) (h : ∀ r ∈ recs, r.meta.session_id ≠ sid) :
    get_session_history_summary (some recs) sid = "" := by
  simp only [get_session_history_summary]
  by_cases hlen : recs.length = 0
  · simp [hlen]
  · rw [if_neg hlen]
    have hfil : recs.filter (fun r => r.meta.session_id = sid) = [] :=
      List.filter_eq_nil_iff.mpr (fun r hr => by simp [h r hr])
    rw [hfil]
    simp

/-- C7: `clear_session_memory` succeeds, removes every record of the
session (a session with zero records being a successful no-op), and
afterwards `get_weak_areas` returns `[]` and `get_session_history_summary`
returns `""`; on an unreachable store all three already degrade
(`false` / `[]` / `""`). -/
theorem clear_session_spec (st : Option (List MemRecord)) (sid : String)
    (sim : List MemRecord → List MemRecord) (top_k : ℕ)
    (hsim : ∀ l, (sim l).Perm l) :
    (∀ recs, st = some recs →
      (clear_session_memory st sid).2 = true ∧
      (∀ recs', (clear_session_memory st sid).1 = some recs' →
        (∀ r ∈ recs', r.meta.session_id ≠ sid) ∧
        ((∀ r ∈ recs, r.meta.session_id ≠ sid) → recs' = recs))) ∧
    get_weak_areas (clear_session_memory st sid).1 sim sid top_k = [] ∧
    get_session_history_summary (clear_session_memory st sid).1 sid = "" := by
  rcases st with _ | recs
  · exact ⟨fun recs h => by simp at h, rfl, rfl⟩
  · have hfst : (clear_session_memory (some recs) sid).1 =
        some (recs.filter (fun r =>
          ¬ r.id ∈ (recs.filter (fun r => r.meta.session_id = sid)).map
            (fun r => r.id))) := rfl
    refine ⟨fun recs0 h0 => ?_, ?_, ?_⟩
    · injection h0 with h0'
      subst h0'
      refine ⟨rfl, fun recs' h' => ?_⟩
      rw [hfst] at h'
      injection h' with h''
      subst h''
      refine ⟨clear_session_no_sid recs sid, fun hnone => ?_⟩
      have hids : (recs.filter (fun r => r.meta.session_id = sid)) = [] :=
        List.filter_eq_nil_iff.mpr (fun r hr => by simp [hnone r hr])
      rw [hids]
      exact List.filter_eq_self.mpr (fun r _ => by simp)
    · rw [hfst]
      exact get_weak_areas_of_no_sid _ sid sim top_k hsim
        (clear_session_no_sid recs sid)
    · rw [hfst]
      exact get_session_history_summary_of_no_sid _ sid
        (clear_session_no_sid recs sid)

/-- Witness for `clear_session_spec`: clearing session `"s"` from a store
holding one record of `"s"` and one of `"u"` succeeds and empties the
session's queries. -/
theorem clear_session_spec_witness :
    (clear_session_memory
        (some [⟨"i1", "d1", ⟨"s", "Math", "Easy", 20, false⟩⟩,
               ⟨"i2", "d2", ⟨"u", "Code", "Easy", 90, true⟩⟩]) "s").2 = true ∧
    get_weak_areas
        (clear_session_memory
          (some [⟨"i1", "d1", ⟨"s", "Math", "Easy", 20, false⟩⟩,
                 ⟨"i2", "d2", ⟨"u", "Code", "Easy", 90, true⟩⟩]) "s").1
        (fun l => l) "s" 5 = [] ∧
    get_session_history_summary
        (clear_session_memory
          (some [⟨"i1", "d1", ⟨"s", "Math", "Easy", 20, false⟩⟩,
                 ⟨"i2", "d2", ⟨"u", "Code", "Easy", 90, true⟩⟩]) "s").1
        "s" = "" := by
  have h := clear_session_spec
    (some [⟨"i1", "d1", ⟨"s", "Math", "Easy", 20, false⟩⟩,
           ⟨"i2", "d2", ⟨"u", "Code", "Easy", 90, true⟩⟩]) "s"
    (fun l => l) 5 (fun l => List.Perm.refl l)
  exact ⟨(h.1 _ rfl).1, h.2.1, h.2.2⟩

theorem filter_id_singleton {recs : List MemRecord} {i : String}
    (hnd : (recs.map (fun r => r.id)).Nodup)
    (hany : recs.any (fun x => x.id = i) = true) :
    ∃ x₀, recs.filter (fun x => x.id = i) = [x₀] ∧ x₀.id = i := by
  induction recs with
  | nil => simp at hany
  | cons x rest ih =>
    simp only [List.map_cons, List.nodup_cons] at hnd
    by_cases hx : x.id = i
    · refine ⟨x, ?_, hx⟩
      have hrest : rest.filter (fun y => y.id = i) = [] :=
        List.filter_eq_nil_iff.mpr (fun y hy => by
          simp only [decide_eq_true_eq]
          intro hyi
          exact hnd.1 (List.mem_map.mpr ⟨y, hy, by rw [hyi, hx]⟩))
      simp [List.filter_cons, hx, hrest]
    · have hany' : rest.any (fun x => x.id = i) = true := by
        simp only [List.any_cons, Bool.or_eq_true, decide_eq_true_eq] at hany
        rcases hany with h | h
        · exact absurd h hx
        · exact h
      obtain ⟨x₀, hfil, hx₀⟩ := ih hnd.2 hany'
      exact ⟨x₀, by simp [List.filter_cons, hx, hfil], hx₀⟩

theorem upsertRec_spec (recs : List MemRecord) (i : String) (r : MemRecord)
    (hr : r.id = i) (hnd : (recs.map (fun x => x.id)).Nodup) :
    ((upsertRec recs i r).map (fun x => x.id)).Nodup ∧
    (upsertRec recs i r).filter (fun x => x.id = i) = [r] ∧
    (recs.any (fun x => x.id = i) = true →
      (upsertRec recs i r).length = recs.length) ∧
    (recs.any (fun x => x.id = i) = false →
      (upsertRec recs i r).length = recs.length + 1) := by
  by_cases hany : recs.any (fun x => x.id = i) = true
  · have hids : (recs.map (fun x => if x.id = i then r else x)).map
        (fun x => x.id) = recs.map (fun x => x.id) := by
      rw [List.map_map]
      exact List.map_congr_left (fun x _ => by
        by_cases hx : x.id = i
        · simp [hx, hr]
        · simp [hx])
    refine ⟨?_, ?_, fun _ => ?_, fun hfalse => ?_⟩
    · rw [upsertRec, if_pos hany, hids]
      exact hnd
    · rw [upsertRec, if_pos hany]
      obtain ⟨x₀, hfil, hx₀⟩ := filter_id_singleton hnd hany
      rw [List.filter_map]
      have hcong : recs.filter ((fun x => x.id = i) ∘
          (fun x => if x.id = i then r else x)) =
          recs.filter (fun x => x.id = i) := by
        refine List.filter_congr (fun x _ => ?_)
        by_cases hx : x.id = i
        · simp [hx, hr]
        · simp [hx]
      rw [hcong, hfil]
      simp [hx₀]
    · rw [upsertRec, if_pos hany]
      simp
    · rw [hfalse] at hany
      simp at hany
  · have hany' : recs.any (fun x => x.id = i) = false := by
      simpa using hany
    have hno : ∀ x ∈ recs, ¬ x.id = i := by
      intro x hx
      have := List.any_eq_false.mp hany' x hx
      simpa using this
    refine ⟨?_, ?_, fun htrue => absurd htrue hany, fun _ => ?_⟩
    · rw [upsertRec, if_neg hany]
      simp only [List.map_append, List.map_cons, List.map_nil]
      rw [List.nodup_append]
      refine ⟨hnd, by simp, ?_⟩
      intro a ha hb
      simp only [List.mem_cons, List.not_mem_nil, or_false] at hb
      subst hb
      obtain ⟨x, hx, hxid⟩ := List.mem_map.mp ha
      exact hno x hx (hxid.trans hr)
    · rw [upsertRec, if_neg hany, List.filter_append]
      have h1 : recs.filter (fun x => x.id = i) = [] :=
        List.filter_eq_nil_iff.mpr (fun x hx => by simp [hno x hx])
      rw [h1]
      simp [hr]
    · rw [upsertRec, if_neg hany]
      simp

/-- C8: `store_answer` derives the record id from
`(session_id, question)`; two stores with the same session and question
overwrite rather than duplicate — id-uniqueness is preserved, the second
call leaves the record count unchanged, exactly one record carries the
derived id, and its metadata has `correct = (score_percent ≥ 70)` from the
latest call. -/
theorem store_answer_upsert_spec (recs : List MemRecord)
    (digest : String → String) (sid q : String)
    (ua₁ ca₁ ua₂ ca₂ : List String) (t₁ d₁ t₂ d₂ : String) (s₁ s₂ : ℚ)
    (hnd : (recs.map (fun r => r.id)).Nodup) :
    ∃ recs₁ recs₂,
      store_answer (some recs) digest sid q ua₁ ca₁ t₁ d₁ s₁ =
        (some recs₁, true) ∧
      store_answer (some recs₁) digest sid q ua₂ ca₂ t₂ d₂ s₂ =
        (some recs₂, true) ∧
      (recs₁.map (fun r => r.id)).Nodup ∧
      (recs₂.map (fun r => r.id)).Nodup ∧
      recs₂.length = recs₁.length ∧
      (recs₂.filter (fun r => r.id = digest (sid ++ ":" ++ q))).length = 1 ∧
      (∀ r ∈ recs₂, r.id = digest (sid ++ ":" ++ q) →
        r.meta = ⟨sid, t₂, d₂, s₂, decide (s₂ ≥ 70)⟩) := by
  have hid1 : (storeRec digest sid q ua₁ ca₁ t₁ d₁ s₁).id =
      digest (sid ++ ":" ++ q) := rfl
  have hid2 : (storeRec digest sid q ua₂ ca₂ t₂ d₂ s₂).id =
      digest (sid ++ ":" ++ q) := rfl
  have h1 := upsertRec_spec recs (digest (sid ++ ":" ++ q))
    (storeRec digest sid q ua₁ ca₁ t₁ d₁ s₁) hid1 hnd
  have h2 := upsertRec_spec
    (upsertRec recs (digest (sid ++ ":" ++ q))
      (storeRec digest sid q ua₁ ca₁ t₁ d₁ s₁))
    (digest (sid ++ ":" ++ q))
    (storeRec digest sid q ua₂ ca₂ t₂ d₂ s₂) hid2 h1.1
  refine ⟨_, _, rfl, rfl, h1.1, h2.1, ?_, ?_, ?_⟩
  · have hmem : storeRec digest sid q ua₁ ca₁ t₁ d₁ s₁ ∈
        (upsertRec recs (digest (sid ++ ":" ++ q))
          (storeRec digest sid q ua₁ ca₁ t₁ d₁ s₁)).filter
          (fun x => x.id = digest (sid ++ ":" ++ q)) := by
      rw [h1.2.1]; simp
    have hany : (upsertRec recs (digest (sid ++ ":" ++ q))
        (storeRec digest sid q ua₁ ca₁ t₁ d₁ s₁)).any
        (fun x => x.id = digest (sid ++ ":" ++ q)) = true :=
      List.any_eq_true.mpr ⟨_, (List.mem_filter.mp hmem).1, by simp [hid1]⟩
    exact h2.2.2.1 hany
  · rw [h2.2.1]
    rfl
  · intro r hr hid
    have hrf : r ∈ (upsertRec
        (upsertRec recs (digest (sid ++ ":" ++ q))
          (storeRec digest sid q ua₁ ca₁ t₁ d₁ s₁))
        (digest (sid ++ ":" ++ q))
        (storeRec digest sid q ua₂ ca₂ t₂ d₂ s₂)).filter
        (fun x => x.id = digest (sid ++ ":" ++ q)) :=
      List.mem_filter.mpr ⟨hr, by simp [hid]⟩
    rw [h2.2.1] at hrf
    simp only [List.mem_cons, List.not_mem_nil, or_false] at hrf
    rw [hrf]
    rfl

/-- Witness for `store_answer_upsert_spec`: storing the same
`(session, question)` twice into an empty store. -/
theorem store_answer_upsert_spec_witness :
    ∃ recs₁ recs₂,
      store_answer (some []) (fun s => s) "sess" "Q1" ["a"] ["b"] "Math"
          "Easy" 40 = (some recs₁, true) ∧
      store_answer (some recs₁) (fun s => s) "sess" "Q1" ["b"] ["b"] "Math"
          "Easy" 100 = (some recs₂, true) ∧
      (recs₁.map (fun r => r.id)).Nodup ∧
      (recs₂.map (fun r => r.id)).Nodup ∧
      recs₂.length = recs₁.length ∧
      (recs₂.filter (fun r => r.id = (fun s => s) ("sess" ++ ":" ++ "Q1"))).length = 1 ∧
      (∀ r ∈ recs₂, r.id = (fun s => s) ("sess" ++ ":" ++ "Q1") →
        r.meta = ⟨"sess", "Math", "Easy", 100, decide ((100 : ℚ) ≥ 70)⟩) :=
  store_answer_upsert_spec [] (fun s => s) "sess" "Q1" ["a"] ["b"] ["b"] ["b"]
    "Math" "Easy" "Math" "Easy" 40 100 (by simp)

theorem bumpTopic_keys (acc : List (String × ℕ)) (t : String) :
    (bumpTopic acc t).map Prod.fst =
      if t ∈ acc.map Prod.fst then acc.map Prod.fst
      else acc.map Prod.fst ++ [t] := by
  induction acc with
  | nil => simp [bumpTopic]
  | cons p rest ih =>
    obtain ⟨k, c⟩ := p
    by_cases hk : k = t
    · simp [bumpTopic, hk]
    · simp only [bumpTopic, if_neg hk, List.map_cons, ih]
      have hiff : (t ∈ k :: rest.map Prod.fst) ↔ t ∈ rest.map Prod.fst := by
        constructor
        · intro h
          rcases List.mem_cons.mp h with h1 | h1
          · exact absurd h1.symm hk
          · exact h1
        · exact fun h => List.mem_cons_of_mem _ h
      rw [if_congr hiff rfl rfl]
      by_cases hm : t ∈ rest.map Prod.fst
      · simp [hm]
      · simp [hm]

theorem bumpTopic_lookup (acc : List (String × ℕ)) (t s : String) :
    alookup (bumpTopic acc t) s =
      if s = t then
        (match alookup acc t with
          | some c => some (c + 1)
          | none => some 1)
      else alookup acc s := by
  induction acc with
  | nil =>
    by_cases hs : s = t
    · subst hs; simp [bumpTopic, alookup]
    · simp [bumpTopic, alookup, hs, Ne.symm hs]
  | cons p rest ih =>
    obtain ⟨k, c⟩ := p
    by_cases hk : k = t
    · subst hk
      by_cases hs : s = k
      · subst hs; simp [bumpTopic, alookup]
      · simp [bumpTopic, alookup, hs, Ne.symm hs]
    · simp only [bumpTopic, if_neg hk]
      by_cases hs : k = s
      · subst hs
        simp [alookup, hk]
      · simp [alookup, hk, hs, ih]

theorem weakCounts_append (l : List MemMeta) (m : MemMeta) :
    weakCounts (l ++ [m]) =
      if m.correct = false then bumpTopic (weakCounts l) m.topic
      else weakCounts l := by
  unfold weakCounts
  rw [List.foldl_append]
  rfl

theorem countFailed_append (l : List MemMeta) (m : MemMeta) (t : String) :
    countFailed (l ++ [m]) t =
      countFailed l t + (if m.correct = false ∧ m.topic = t then 1 else 0) := by
  unfold countFailed
  rw [List.filter_append]
  by_cases h : m.correct = false ∧ m.topic = t <;> simp [h]

theorem weakCounts_lookup (metas : List MemMeta) (s : String) :
    alookup (weakCounts metas) s =
      if 0 < countFailed metas s then some (countFailed metas s) else none := by
  induction metas using List.reverseRecOn with
  | nil => simp [weakCounts, countFailed, alookup]
  | append_singleton l m ih =>
    rw [weakCounts_append, countFailed_append]
    by_cases hc : m.correct = false
    · rw [if_pos hc, bumpTopic_lookup]
      by_cases hs : s = m.topic
      · rw [if_pos hs]
        rw [hs] at ih
        rw [hs, ih]
        have ht : (m.correct = false ∧ m.topic = m.topic) := ⟨hc, rfl⟩
        rw [if_pos ht]
        by_cases h0 : 0 < countFailed l m.topic
        · have h1 : 0 < countFailed l m.topic + 1 := by omega
          simp [h0, h1]
        · have hz : countFailed l m.topic = 0 := by omega
          simp [h0, hz]
      · rw [if_neg hs, ih]
        have ht : ¬ (m.correct = false ∧ m.topic = s) :=
          fun h => hs (h.2.symm)
        rw [if_neg ht]
        simp
    · rw [if_neg hc, ih]
      have ht : ¬ (m.correct = false ∧ m.topic = s) := fun h => hc h.1
      rw [if_neg ht]
      simp

theorem weakCounts_keys_nodup (metas : List MemMeta) :
    ((weakCounts metas).map Prod.fst).Nodup := by
  induction metas using List.reverseRecOn with
  | nil => simp [weakCounts]
  | append_singleton l m ih =>
    rw [weakCounts_append]
    by_cases hc : m.correct = false
    · rw [if_pos hc, bumpTopic_keys]
      by_cases hm : m.topic ∈ (weakCounts l).map Prod.fst
      · simpa [hm] using ih
      · rw [if_neg hm]
        simp only [List.nodup_append, List.nodup_cons]
        exact ⟨ih, by simp, by simpa using hm⟩
    · rw [if_neg hc]
      exact ih

/-- The count attached to a pair of `weakCounts` is the number of failed
candidates of that topic, and it is positive. -/
theorem weakCounts_pair (metas : List MemMeta) {t : String} {c : ℕ}
    (h : (t, c) ∈ weakCounts metas) :
    c = countFailed metas t ∧ 0 < countFailed metas t := by
  have hl := alookup_eq_some_of_mem (weakCounts_keys_nodup metas) h
  rw [weakCounts_lookup] at hl
  by_cases h0 : 0 < countFailed metas t
  · rw [if_pos h0] at hl
    exact ⟨(Option.some.injEq .. ▸ hl).symm, h0⟩
  · rw [if_neg h0] at hl
    simp at hl

/-- C3: `get_weak_areas` returns `[]` on an unreachable store, an empty
store, or any query failure; otherwise it draws at most `3·topK`
candidates, all restricted to the session, counts topics among candidates
with `correct = false`, returns at most `topK` topics — each backed by a
failed record of the session — ranked by failure count in descending
order. -/
theorem weak_areas_spec (st : Option (List MemRecord))
    (sim : List MemRecord → List MemRecord) (sid : String) (top_k : ℕ)
    (hsim : ∀ l, (sim l).Perm l) :
    (st = none → get_weak_areas st sim sid top_k = []) ∧
    (st = some [] → get_weak_areas st sim sid top_k = []) ∧
    (get_weak_areas st sim sid top_k).length ≤ top_k ∧
    (∀ recs, st = some recs →
      (queryCandidates recs sim sid top_k).length ≤ 3 * top_k ∧
      (∀ r ∈ queryCandidates recs sim sid top_k,
        r ∈ recs ∧ r.meta.session_id = sid) ∧
      (∀ t ∈ get_weak_areas st sim sid top_k,
        0 < countFailed
          ((queryCandidates recs sim sid top_k).map (fun r => r.meta)) t ∧
        ∃ r ∈ recs, r.meta.session_id = sid ∧ r.meta.correct = false ∧
          r.meta.topic = t) ∧
      (get_weak_areas st sim sid top_k).Pairwise
        (fun t₁ t₂ =>
          countFailed
            ((queryCandidates recs sim sid top_k).map (fun r => r.meta)) t₂ ≤
          countFailed
            ((queryCandidates recs sim sid top_k).map (fun r => r.meta)) t₁)) := by
  refine ⟨fun h => by rw [h]; rfl, fun h => by rw [h]; rfl, ?_, ?_⟩
  · rcases st with _ | recs
    · simp [get_weak_areas]
    · simp only [get_weak_areas]
      by_cases h0 : recs.length = 0
      · simp [h0]
      · rw [if_neg h0]
        simp only [List.length_map, List.length_take]
        omega
  · intro recs hst
    subst hst
    have hmemQ : ∀ r ∈ queryCandidates recs sim sid top_k,
        r ∈ recs ∧ r.meta.session_id = sid := by
      intro r hr
      unfold queryCandidates at hr
      have h1 : r ∈ sim (recs.filter (fun r => r.meta.session_id = sid)) :=
        List.take_subset _ _ hr
      have h2 : r ∈ recs.filter (fun r => r.meta.session_id = sid) :=
        ((hsim _).mem_iff).mp h1
      have h3 := List.mem_filter.mp h2
      exact ⟨h3.1, by simpa using h3.2⟩
    refine ⟨?_, hmemQ, ?_, ?_⟩
    · unfold queryCandidates
      simp only [List.length_take]
      omega
    · intro t ht
      by_cases h0 : recs.length = 0
      · rw [show get_weak_areas (some recs) sim sid top_k = [] from by
          simp [get_weak_areas, h0]] at ht
        simp at ht
      · simp only [get_weak_areas, if_neg h0] at ht
        obtain ⟨p, hp, hpt⟩ := List.mem_map.mp ht
        have hsm : p ∈ (weakCounts
            ((queryCandidates recs sim sid top_k).map (fun r => r.meta))).mergeSort
            (fun a b => b.2 ≤ a.2) := List.take_subset _ _ hp
        have hwc : p ∈ weakCounts
            ((queryCandidates recs sim sid top_k).map (fun r => r.meta)) :=
          (List.mergeSort_perm _ _).mem_iff.mp hsm
        obtain ⟨tp, cp⟩ := p
        obtain rfl : tp = t := hpt
        have hcf := (weakCounts_pair _ hwc).2
        refine ⟨hcf, ?_⟩
        have hne : ((queryCandidates recs sim sid top_k).map
            (fun r => r.meta)).filter
            (fun m => m.correct = false ∧ m.topic = tp) ≠ [] := by
          intro hnil
          rw [countFailed, hnil] at hcf
          simp at hcf
        obtain ⟨m, hm⟩ := List.exists_mem_of_ne_nil _ hne
        have hm' := List.mem_filter.mp hm
        obtain ⟨r, hrQ, hrm⟩ := List.mem_map.mp hm'.1
        obtain ⟨hcorr, htop⟩ : m.correct = false ∧ m.topic = tp := by
          simpa using hm'.2
        obtain ⟨hrrecs, hrsid⟩ := hmemQ r hrQ
        exact ⟨r, hrrecs, hrsid, by rw [hrm]; exact hcorr,
          by rw [hrm]; exact htop⟩
    · by_cases h0 : recs.length = 0
      · rw [show get_weak_areas (some recs) sim sid top_k = [] from by
          simp [get_weak_areas, h0]]
        simp
      · simp only [get_weak_areas, if_neg h0]
        have hpair : ((weakCounts
            ((queryCandidates recs sim sid top_k).map (fun r => r.meta))).mergeSort
            (fun a b => b.2 ≤ a.2)).Pairwise
            (fun a b : String × ℕ => (decide (b.2 ≤ a.2)) = true) :=
          List.sorted_mergeSort
            (fun a b c h1 h2 => by
              simp only [decide_eq_true_eq] at *
              omega)
            (fun a b => by
              rcases Nat.le_total b.2 a.2 with h | h <;> simp [h])
            (weakCounts ((queryCandidates recs sim sid top_k).map (fun r => r.meta)))
        have hpair2 : ((weakCounts
            ((queryCandidates recs sim sid top_k).map (fun r => r.meta))).mergeSort
            (fun a b => b.2 ≤ a.2)).Pairwise
            (fun a b : String × ℕ =>
              countFailed ((queryCandidates recs sim sid top_k).map
                (fun r => r.meta)) b.1 ≤
              countFailed ((queryCandidates recs sim sid top_k).map
                (fun r => r.meta)) a.1) := by
          refine hpair.imp_of_mem ?_
          intro a b ha hb hr
          have hwa : a ∈ weakCounts ((queryCandidates recs sim sid top_k).map
              (fun r => r.meta)) := (List.mergeSort_perm _ _).mem_iff.mp ha
          have hwb : b ∈ weakCounts ((queryCandidates recs sim sid top_k).map
              (fun r => r.meta)) := (List.mergeSort_perm _ _).mem_iff.mp hb
          have hca := (weakCounts_pair _ (by exact hwa)).1
          have hcb := (weakCounts_pair _ (by exact hwb)).1
          simp only [decide_eq_true_eq] at hr
          rw [← hca, ← hcb]
          exact hr
        exact List.pairwise_map.mpr
          (hpair2.sublist (List.take_sublist top_k _))

/-- Witness for `weak_areas_spec`: a store with one failed `"Math"` record
of session `"s"` yields a result of length at most 5, and an empty store
yields `[]`. -/
theorem weak_areas_spec_witness :
    get_weak_areas (some []) (fun l => l) "s" 5 = [] ∧
    (get_weak_areas
        (some [⟨"i1", "d1", ⟨"s", "Math", "Easy", 20, false⟩⟩])
        (fun l => l) "s" 5).length ≤ 5 :=
  ⟨(weak_areas_spec (some []) (fun l => l) "s" 5
      (fun l => List.Perm.refl l)).2.1 rfl,
   (weak_areas_spec (some [⟨"i1", "d1", ⟨"s", "Math", "Easy", 20, false⟩⟩])
      (fun l => l) "s" 5 (fun l => List.Perm.refl l)).2.2.1⟩

/-! ## `src/app.py` — Submit / Skip handlers

Python sets are modelled as `Finset String` (`chosen_set = set(selected)`,
`correct_set = set(q["correct_options"])`); the record's `chosen` /
`correct` fields hold these sets (the UI stores `list(...)` of them, whose
order is irrelevant and unspecified). -/

theorem pyRound2_intCast (n : ℤ) : pyRound2 (n : ℚ) = n := by
  unfold pyRound2
  have h : (n : ℚ) * 100 = ((n * 100 : ℤ) : ℚ) := by push_cast; ring
  rw [h, roundHalfEven_intCast]
  push_cast
  rw [mul_div_assoc]
  norm_num

/-- C9: with the Question invariant `0 < marks` (`marks_total` a positive
integer), every record appended by Submit — including the multi-answer
partial-credit case — and by Skip satisfies
`0 ≤ marks_earned ≤ marks_total`. -/
theorem answer_record_marks_invariant (idx : ℕ) (question : String)
    (selected correct_options : List String) (marks : ℤ)
    (topic difficulty : String) (hm : 0 < marks) :
    (0 ≤ (submit_record idx question selected correct_options marks topic
        difficulty).marks_earned ∧
      (submit_record idx question selected correct_options marks topic
        difficulty).marks_earned ≤
      (submit_record idx question selected correct_options marks topic
        difficulty).marks_total) ∧
    (0 ≤ (skip_record idx question correct_options marks topic
        difficulty).marks_earned ∧
      (skip_record idx question correct_options marks topic
        difficulty).marks_earned ≤
      (skip_record idx question correct_options marks topic
        difficulty).marks_total) := by
  have hmq : (0 : ℚ) < (marks : ℚ) := by exact_mod_cast hm
  constructor
  · simp only [submit_record]
    unfold submit_earned
    split_ifs with h1 h2
    · exact ⟨le_of_lt hmq, le_refl _⟩
    · exact ⟨le_refl _, le_of_lt hmq⟩
    · set S := selected.toFinset
      set C := correct_options.toFinset
      have hden : (0 : ℚ) < ((max 1 C.card : ℕ) : ℚ) := by
        have : 1 ≤ max 1 C.card := le_max_left _ _
        exact_mod_cast Nat.lt_of_lt_of_le Nat.zero_lt_one this
      have hratio1 : (((S ∩ C).card : ℚ) / ((max 1 C.card : ℕ) : ℚ)) ≤ 1 := by
        rw [div_le_one hden]
        have hcard : (S ∩ C).card ≤ C.card :=
          Finset.card_le_card (Finset.inter_subset_right)
        have : (S ∩ C).card ≤ max 1 C.card :=
          le_trans hcard (le_max_right _ _)
        exact_mod_cast this
      have hratio0 : (0 : ℚ) ≤ (((S ∩ C).card : ℚ) / ((max 1 C.card : ℕ) : ℚ)) := by
        positivity
      have h0 : (0 : ℚ) ≤ (marks : ℚ) *
          (((S ∩ C).card : ℚ) / ((max 1 C.card : ℕ) : ℚ)) := by positivity
      have hle : (marks : ℚ) *
          (((S ∩ C).card : ℚ) / ((max 1 C.card : ℕ) : ℚ)) ≤ (marks : ℚ) := by
        calc (marks : ℚ) * (((S ∩ C).card : ℚ) / ((max 1 C.card : ℕ) : ℚ))
            ≤ (marks : ℚ) * 1 := by
              exact mul_le_mul_of_nonneg_left hratio1 (le_of_lt hmq)
          _ = (marks : ℚ) := mul_one _
      exact pyRound2_bounds h0 hle
  · simp only [skip_record]
    exact ⟨le_refl _, le_of_lt hmq⟩

/-- Witness for `answer_record_marks_invariant` at a concrete multi-answer
submission. -/
theorem answer_record_marks_invariant_witness :
    0 ≤ (submit_record 0 "Q" ["a", "b", "c"] ["a", "b"] 5 "Math"
        "Easy").marks_earned ∧
    (submit_record 0 "Q" ["a", "b", "c"] ["a", "b"] 5 "Math"
        "Easy").marks_earned ≤
      (submit_record 0 "Q" ["a", "b", "c"] ["a", "b"] 5 "Math"
        "Easy").marks_total :=
  (answer_record_marks_invariant 0 "Q" ["a", "b", "c"] ["a", "b"] 5 "Math"
    "Easy" (by norm_num)).1

/-- C10: the Submit scoring rule — for `|C| = 1`, full marks exactly on an
exact match; for `|C| ≥ 2`, partial credit
`round(m · |S ∩ C| / |C|, 2)` with no deduction for wrong selections, so
choosing a strict superset of the answer key earns full marks while the
`correct_flag` (`S = C`) is false. -/
theorem submit_scoring_spec (chosen correct : Finset String) (marks : ℤ)
    (hS : chosen.Nonempty) :
    (correct.card = 1 →
      submit_earned chosen correct marks =
        (if chosen = correct then (marks : ℚ) else 0)) ∧
    (2 ≤ correct.card →
      submit_earned chosen correct marks =
        pyRound2 ((marks : ℚ) * ((chosen ∩ correct).card : ℚ) /
          (correct.card : ℚ))) ∧
    (2 ≤ correct.card → correct ⊆ chosen →
      submit_earned chosen correct marks = (marks : ℚ)) ∧
    (correct ⊂ chosen → ¬ (chosen = correct)) := by
  have hmax : ∀ h2 : 2 ≤ correct.card, (max 1 correct.card) = correct.card :=
    fun h2 => Nat.max_eq_right (by omega)
  refine ⟨fun h1 => ?_, fun h2 => ?_, fun h2 hsub => ?_, fun hss => ?_⟩
  · unfold submit_earned
    rw [if_pos h1]
  · unfold submit_earned
    rw [if_neg (by omega), hmax h2, mul_div_assoc]
  · unfold submit_earned
    rw [if_neg (by omega), hmax h2]
    have hinter : chosen ∩ correct = correct :=
      Finset.inter_eq_right.mpr hsub
    have hcard0 : (correct.card : ℚ) ≠ 0 := by
      have : 0 < correct.card := by omega
      exact_mod_cast Nat.pos_iff_ne_zero.mp this
    rw [hinter, div_self hcard0, mul_one]
    exact pyRound2_intCast marks
  · exact fun heq => hss.ne (heq ▸ rfl)

/-- Witness for `submit_scoring_spec`: choosing all of
`{"a","b","c"}` against answer key `{"a","b"}` (marks 5). -/
theorem submit_scoring_spec_witness :
    submit_earned ({"a", "b", "c"} : Finset String)
        ({"a", "b"} : Finset String) 5 = ((5 : ℤ) : ℚ) ∧
    ¬ (({"a", "b", "c"} : Finset String) = ({"a", "b"} : Finset String)) :=
  ⟨(submit_scoring_spec {"a", "b", "c"} {"a", "b"} 5
      (by decide)).2.2.1 (by decide) (by decide),
   (submit_scoring_spec {"a", "b", "c"} {"a", "b"} 5
      (by decide)).2.2.2 (by decide)⟩

end Drona
